import Mathlib

/-
Verification development for the NIQE calculator (niqe_calculator.py).

The file is a shallow embedding of the scoring pipeline:
 * the control flow of `NIQECalculator.niqe`, `get_auto_patch_size` and the
   size guard of `_get_patches_generic` over Nat/Int with `Except` results
   (assertion failures and the `exit(0)` call become error constructors);
 * the patch tiling / counting behaviour of `extract_on_patches` and the
   crop-and-halve logic of `_get_patches_generic` over Nat;
 * the numeric kernels (`aggd_features`, `paired_product`,
   `_niqe_extract_subband_feats`, `gen_gauss_window`, the final score) over
   the real numbers, with the IEEE-754 infinity/NaN propagation that numpy
   floats exhibit made explicit through the extended value type `FV`.
-/

namespace Niqe

/-- Ways a scoring call can abort, mirroring `niqe_calculator.py`:
the `assert` in `get_auto_patch_size` (line 185), the two size `assert`s in
`niqe` (lines 202-203), the Python `ZeroDivisionError` raised by `h % 0`
in `_get_patches_generic` (line 155) when the configured patch size is 0,
and the `exit(0)` call of `_get_patches_generic` (line 152), which
terminates the process instead of raising. -/
inductive Err where
  | autoAssert
  | sizeAssert
  | zeroDiv
  | exitZero
  deriving DecidableEq

/-- The `patch_size` configuration of `NIQECalculator.__init__`: the string
`'auto'` or an explicit size. -/
inductive PatchMode where
  | auto
  | fixed (p : ℕ)
  deriving DecidableEq

/-- Candidate list of `get_auto_patch_size` (line 186). -/
def patch_sizes : List ℕ := [96, 64, 48, 32, 16, 8]

/-- The scan loop of `get_auto_patch_size` (lines 187-190): first candidate
`c` with `img_w > 2c+1` and `img_h > 2c+1`, else the sentinel `-1`. -/
def autoScan (w h : ℕ) : List ℕ → ℤ
  | [] => -1
  | c :: rest => if 2 * c + 1 < w ∧ 2 * c + 1 < h then (c : ℤ) else autoScan w h rest

/-- `get_auto_patch_size(img_w, img_h)` (lines 184-190): asserts
`img_w >= 18 and img_h >= 18`, then scans the candidate list. -/
def get_auto_patch_size (w h : ℕ) : Except Err ℤ :=
  if 18 ≤ w ∧ 18 ≤ h then .ok (autoScan w h patch_sizes) else .error .autoAssert

/-- The mutable state of a `NIQECalculator`: the lazily loaded parameter
file content (`self.params` / `self.pop_mu` / `self.pop_cov`,
lines 24-26 and 193-196).  `P` stands for the loaded pair
(population mean, population covariance); the file content itself is a
fixed external value handed in as `fileParams` below. -/
structure CalcState (P : Type) where
  params : Option P
  deriving DecidableEq

/-- Lines 193-196 of `niqe`: load the parameter file on first use,
keep the cached value afterwards. -/
def loadIfNeeded {P : Type} (fileParams : P) (s : CalcState P) : CalcState P :=
  match s.params with
  | none => ⟨some fileParams⟩
  | some q => ⟨some q⟩

/-- Line 201 of `niqe`: the resolved patch size, either from
`get_auto_patch_size(N, M)` (note the argument order: `N` is the width,
`M` the height) or the explicitly configured size. -/
def resolvePatchSize (mode : PatchMode) (M N : ℕ) : Except Err ℤ :=
  match mode with
  | .auto => get_auto_patch_size N M
  | .fixed p => .ok (p : ℤ)

/-- The guard of `_get_patches_generic` (lines 148-161): `exit(0)` when the
image is smaller than the patch size, and the `h % patch_size` /
`w % patch_size` computations, which raise `ZeroDivisionError` in Python
when the patch size is 0. -/
def get_patches_size_guard (M N : ℕ) (p : ℤ) : Except Err Unit :=
  if (M : ℤ) < p ∨ (N : ℤ) < p then .error .exitZero
  else if p = 0 then .error .zeroDiv
  else .ok ()

/-- Control-flow model of `NIQECalculator.niqe` (lines 192-213): load the
cached parameters, resolve the patch size, run the two size asserts, run
the `_get_patches_generic` guard, and on success produce the score.  The
numeric value of the score is abstracted into `scoreOf`, a pure function
of the loaded population statistics and the image (the pipeline below it
is deterministic and state-free). -/
def niqeM {P S : Type} (fileParams : P) (scoreOf : P → ℕ → ℕ → S)
    (mode : PatchMode) (s : CalcState P) (M N : ℕ) :
    CalcState P × Except Err S :=
  let s2 := loadIfNeeded fileParams s
  let pop := s2.params.getD fileParams
  match resolvePatchSize mode M N with
  | .error e => (s2, .error e)
  | .ok p =>
    if 2 * p + 1 < (M : ℤ) ∧ 2 * p + 1 < (N : ℤ) then
      match get_patches_size_guard M N p with
      | .error e => (s2, .error e)
      | .ok _ => (s2, .ok (scoreOf pop M N))
    else (s2, .error .sizeAssert)

/-! ### Patch tiling and counting (`extract_on_patches`, `_get_patches_generic`) -/

/-- Number of indices produced by `range(0, h - patch_size + 1, patch_size)`
(lines 137-138). -/
def perDimPatchCount (h p : ℕ) : ℕ := if h < p then 0 else (h - p) / p + 1

/-- Lines 154-161 of `_get_patches_generic`: crop the trailing
`h % patch_size` rows (and symmetrically columns). -/
def croppedDim (h p : ℕ) : ℕ := h - h % p

/-- Output height/width of `cv2.resize(img, (0,0), fx=0.5, fy=0.5, ...)`
(line 164): OpenCV computes the new dimension as `cvRound(n * 0.5)`,
rounding half to even. -/
def halfDim (n : ℕ) : ℕ :=
  if n % 2 = 0 then n / 2
  else if (n / 2) % 2 = 0 then n / 2 else n / 2 + 1

/-- Top-left corners of the patches visited by the two nested loops of
`extract_on_patches` (lines 137-140), top-to-bottom and, within a row of
tiles, left-to-right. -/
def patchOrigins (h w p : ℕ) : List (ℕ × ℕ) :=
  (List.range (perDimPatchCount h p)).flatMap fun a =>
    (List.range (perDimPatchCount w p)).map fun b => (a * p, b * p)

/-- Row count of `feats_lvl1` (line 172): patches of size `patch_size`
extracted from the cropped full-resolution MSCN field (the MSCN transform
is shape preserving, lines 109-117). -/
def lvl1PatchCount (h w p : ℕ) : ℕ :=
  perDimPatchCount (croppedDim h p) p * perDimPatchCount (croppedDim w p) p

/-- Row count of `feats_lvl2` (line 173): patches of size
`int(patch_size/2)` extracted from the MSCN field of the half-resolution
image produced by `cv2.resize` on the cropped image. -/
def lvl2PatchCount (h w p : ℕ) : ℕ :=
  perDimPatchCount (halfDim (croppedDim h p)) (p / 2) *
    perDimPatchCount (halfDim (croppedDim w p)) (p / 2)

/-! ### Extended float values

The AGGD fitter (`aggd_features`, lines 28-67) deliberately produces
`np.inf` in degenerate cases, and the arithmetic that follows combines
such values under IEEE-754 semantics, where `inf/inf` and `inf * nan`
produce NaN.  `FV` makes those values explicit: a finite real payload,
the two infinities, and NaN, with the arithmetic of the operations the
fitter actually performs. -/

inductive FV where
  | fin (x : ℝ)
  | inf
  | ninf
  | nan

noncomputable section
open scoped Classical

/-- IEEE-754 addition on extended values. -/
def fvAdd : FV → FV → FV
  | .nan, _ => .nan
  | _, .nan => .nan
  | .fin a, .fin b => .fin (a + b)
  | .fin _, .inf => .inf
  | .inf, .fin _ => .inf
  | .fin _, .ninf => .ninf
  | .ninf, .fin _ => .ninf
  | .inf, .inf => .inf
  | .ninf, .ninf => .ninf
  | .inf, .ninf => .nan
  | .ninf, .inf => .nan

/-- IEEE-754 subtraction on extended values. -/
def fvSub : FV → FV → FV
  | .nan, _ => .nan
  | _, .nan => .nan
  | .fin a, .fin b => .fin (a - b)
  | .fin _, .inf => .ninf
  | .inf, .fin _ => .inf
  | .fin _, .ninf => .inf
  | .ninf, .fin _ => .ninf
  | .inf, .inf => .nan
  | .ninf, .ninf => .nan
  | .inf, .ninf => .inf
  | .ninf, .inf => .ninf

/-- IEEE-754 multiplication on extended values (`inf * 0 = nan`). -/
def fvMul : FV → FV → FV
  | .nan, _ => .nan
  | _, .nan => .nan
  | .fin a, .fin b => .fin (a * b)
  | .fin a, .inf => if 0 < a then .inf else if a < 0 then .ninf else .nan
  | .inf, .fin a => if 0 < a then .inf else if a < 0 then .ninf else .nan
  | .fin a, .ninf => if 0 < a then .ninf else if a < 0 then .inf else .nan
  | .ninf, .fin a => if 0 < a then .ninf else if a < 0 then .inf else .nan
  | .inf, .inf => .inf
  | .inf, .ninf => .ninf
  | .ninf, .inf => .ninf
  | .ninf, .ninf => .inf

/-- IEEE-754 division on extended values (`inf / inf = nan`,
`x / 0 = ±inf` for `x ≠ 0`, `0 / 0 = nan`). -/
def fvDiv : FV → FV → FV
  | .nan, _ => .nan
  | _, .nan => .nan
  | .fin a, .fin b =>
      if b = 0 then (if a = 0 then .nan else if 0 < a then .inf else .ninf)
      else .fin (a / b)
  | .fin _, .inf => .fin 0
  | .fin _, .ninf => .fin 0
  | .inf, .fin b => if 0 ≤ b then .inf else .ninf
  | .ninf, .fin b => if 0 ≤ b then .ninf else .inf
  | .inf, .inf => .nan
  | .inf, .ninf => .nan
  | .ninf, .inf => .nan
  | .ninf, .ninf => .nan

/-- `math.pow` with a natural exponent on extended values
(`math.pow(inf, k) = inf` for `k > 0`). -/
def fvPow : FV → ℕ → FV
  | .fin a, k => .fin (a ^ k)
  | .inf, k => if k = 0 then .fin 1 else .inf
  | .ninf, k => if k = 0 then .fin 1 else if k % 2 = 1 then .ninf else .inf
  | .nan, k => if k = 0 then .fin 1 else .nan

/-! ### The AGGD fitter (`aggd_features`, lines 28-67)

A patch arrives as a flattened list of (finite) real samples. -/

/-- `np.average` of a list of reals (the call sites below are guarded by
nonemptiness exactly where the source guards them). -/
def npAverage (l : List ℝ) : ℝ := l.sum / l.length

/-- `left_data = imdata2[patch < 0]` (lines 30-31): squares of the strictly
negative samples. -/
def leftData (patch : List ℝ) : List ℝ :=
  (patch.filter fun x => decide (x < 0)).map fun x => x ^ 2

/-- `right_data = imdata2[patch >= 0]` (line 32): squares of the
non-negative samples. -/
def rightData (patch : List ℝ) : List ℝ :=
  (patch.filter fun x => decide (0 ≤ x)).map fun x => x ^ 2

/-- Lines 33-36: `left_mean_sqrt`, 0 when no strictly negative sample
exists. -/
def left_mean_sqrt (patch : List ℝ) : ℝ :=
  if leftData patch = [] then 0 else Real.sqrt (npAverage (leftData patch))

/-- Lines 34-38: `right_mean_sqrt`, 0 when no non-negative sample
exists. -/
def right_mean_sqrt (patch : List ℝ) : ℝ :=
  if rightData patch = [] then 0 else Real.sqrt (npAverage (rightData patch))

/-- Lines 40-43: `gamma_hat = left/right` when `right_mean_sqrt != 0`,
else `np.inf`. -/
def gamma_hat (patch : List ℝ) : FV :=
  if right_mean_sqrt patch ≠ 0 then
    .fin (left_mean_sqrt patch / right_mean_sqrt patch)
  else .inf

/-- Line 46: `np.mean(imdata2)`. -/
def imdata2_mean (patch : List ℝ) : ℝ := npAverage (patch.map fun x => x ^ 2)

/-- Lines 47-50: `r_hat = mean(|patch|)^2 / mean(patch^2)` when the
denominator is nonzero, else `np.inf`. -/
def r_hat (patch : List ℝ) : FV :=
  if imdata2_mean patch ≠ 0 then
    .fin ((npAverage (patch.map fun x => |x|)) ^ 2 / imdata2_mean patch)
  else .inf

/-- Numerator of the normalisation factor on line 51:
`(gamma_hat^3 + 1) * (gamma_hat + 1)`. -/
def rhat_norm_num (patch : List ℝ) : FV :=
  fvMul (fvAdd (fvPow (gamma_hat patch) 3) (.fin 1))
    (fvAdd (gamma_hat patch) (.fin 1))

/-- Denominator of the normalisation factor on line 51:
`(gamma_hat^2 + 1)^2`. -/
def rhat_norm_den (patch : List ℝ) : FV :=
  fvPow (fvAdd (fvPow (gamma_hat patch) 2) (.fin 1)) 2

/-- Line 51: `rhat_norm = r_hat * (num / den)`. -/
def rhat_norm (patch : List ℝ) : FV :=
  fvMul (r_hat patch) (fvDiv (rhat_norm_num patch) (rhat_norm_den patch))

/-- The shape grid `np.arange(0.2, 10, 0.001)` (line 17): entry `k` is
`0.2 + k * 0.001`. -/
def gamma_range (k : ℕ) : ℝ := 0.2 + (k : ℝ) * 0.001

/-- Length of `np.arange(0.2, 10, 0.001)`. -/
def gammaRangeLen : ℕ := 9800

/-- The precomputed ratio table (lines 18-22):
`Γ(2/γ)² / (Γ(1/γ)·Γ(3/γ))` for each grid entry. -/
def prec_gammas (k : ℕ) : ℝ :=
  Real.Gamma (2 / gamma_range k) ^ 2 /
    (Real.Gamma (1 / gamma_range k) * Real.Gamma (3 / gamma_range k))

/-- Strict order on non-NaN extended values (used by the argmin scan). -/
def fvLt : FV → FV → Prop
  | .fin a, .fin b => a < b
  | .ninf, .fin _ => True
  | .fin _, .inf => True
  | .ninf, .inf => True
  | _, _ => False

/-- The scan of `np.argmin`: keep the index of the current minimum,
where a NaN candidate always wins and a NaN current minimum is never
replaced (numpy propagates NaN, so `argmin` returns the index of the
first NaN when one is present, else the first minimum). -/
def npArgminAux : List FV → ℕ → FV → ℕ → ℕ
  | [], bi, _, _ => bi
  | x :: xs, bi, best, i =>
      if ¬best = FV.nan ∧ (x = FV.nan ∨ fvLt x best) then
        npArgminAux xs i x (i + 1)
      else npArgminAux xs bi best (i + 1)

/-- `np.argmin` over a list of extended values. -/
def npArgmin : List FV → ℕ
  | [] => 0
  | x :: xs => npArgminAux xs 0 x 1

/-- Line 54: the elementwise `(prec_gammas - rhat_norm) ** 2` array. -/
def sq_diffs (patch : List ℝ) : List FV :=
  (List.range gammaRangeLen).map fun k =>
    fvPow (fvSub (.fin (prec_gammas k)) (rhat_norm patch)) 2

/-- Line 54: `pos = np.argmin((prec_gammas - rhat_norm) ** 2)`. -/
def alpha_pos (patch : List ℝ) : ℕ := npArgmin (sq_diffs patch)

/-- Line 55: `alpha = gamma_range[pos]`. -/
def alpha (patch : List ℝ) : ℝ := gamma_range (alpha_pos patch)

/-- `aggd_features` (lines 28-67): the returned sextuple
`(alpha, N, bl, br, left_mean_sqrt, right_mean_sqrt)`. -/
def aggd_features (patch : List ℝ) : ℝ × ℝ × ℝ × ℝ × ℝ × ℝ :=
  let a := alpha patch
  let gam1 := Real.Gamma (1 / a)
  let gam2 := Real.Gamma (2 / a)
  let gam3 := Real.Gamma (3 / a)
  let aggdratio := Real.sqrt gam1 / Real.sqrt gam3
  let bl := aggdratio * left_mean_sqrt patch
  let br := aggdratio * right_mean_sqrt patch
  let N := (br - bl) * (gam2 / gam1)
  (a, N, bl, br, left_mean_sqrt patch, right_mean_sqrt patch)

/-- First component (`alpha`) of `aggd_features`. -/
def aggdAlpha (patch : List ℝ) : ℝ := (aggd_features patch).1

/-- Second component (`N`, the mean parameter) of `aggd_features`. -/
def aggdN (patch : List ℝ) : ℝ := (aggd_features patch).2.1

/-- Third component (`bl`) of `aggd_features`. -/
def aggdBl (patch : List ℝ) : ℝ := (aggd_features patch).2.2.1

/-- Fourth component (`br`) of `aggd_features`. -/
def aggdBr (patch : List ℝ) : ℝ := (aggd_features patch).2.2.2.1

/-! ### Paired products and the per-patch feature vector -/

/-- `H_img = np.roll(im, 1, axis=1) * im` (lines 78, 83): a cyclic shift of
one column to the right, then an elementwise product. -/
def pp_H {m n : ℕ} (p : Fin (m + 1) → Fin (n + 1) → ℝ) :
    Fin (m + 1) → Fin (n + 1) → ℝ :=
  fun i j => p i (j - 1) * p i j

/-- `V_img = np.roll(im, 1, axis=0) * im` (lines 79, 84). -/
def pp_V {m n : ℕ} (p : Fin (m + 1) → Fin (n + 1) → ℝ) :
    Fin (m + 1) → Fin (n + 1) → ℝ :=
  fun i j => p (i - 1) j * p i j

/-- `D1_img = np.roll(np.roll(im, 1, axis=0), 1, axis=1) * im`
(lines 80, 85). -/
def pp_D1 {m n : ℕ} (p : Fin (m + 1) → Fin (n + 1) → ℝ) :
    Fin (m + 1) → Fin (n + 1) → ℝ :=
  fun i j => p (i - 1) (j - 1) * p i j

/-- `D2_img = np.roll(np.roll(im, 1, axis=0), -1, axis=1) * im`
(lines 81, 86). -/
def pp_D2 {m n : ℕ} (p : Fin (m + 1) → Fin (n + 1) → ℝ) :
    Fin (m + 1) → Fin (n + 1) → ℝ :=
  fun i j => p (i - 1) (j + 1) * p i j

/-- Row-major flattening, as performed by the reshape on line 29. -/
def flatten2d {m n : ℕ} (p : Fin m → Fin n → ℝ) : List ℝ :=
  (List.finRange m).flatMap fun i => (List.finRange n).map fun j => p i j

/-- `_niqe_extract_subband_feats` (lines 119-131): one AGGD fit on the MSCN
patch, one on each of the four paired-product fields, assembled into the
18-entry feature vector.  Note that the D1 and D2 quadruples repeat `bl`
in the slot where `br` sits for H and V (lines 129-130 of the source). -/
def niqe_extract_subband_feats {m n : ℕ}
    (p : Fin (m + 1) → Fin (n + 1) → ℝ) : List ℝ :=
  let f0 := flatten2d p
  let f1 := flatten2d (pp_H p)
  let f2 := flatten2d (pp_V p)
  let f3 := flatten2d (pp_D1 p)
  let f4 := flatten2d (pp_D2 p)
  [aggdAlpha f0, (aggdBl f0 + aggdBr f0) / 2,
   aggdAlpha f1, aggdN f1, aggdBl f1, aggdBr f1,
   aggdAlpha f2, aggdN f2, aggdBl f2, aggdBr f2,
   aggdAlpha f3, aggdN f3, aggdBl f3, aggdBl f3,
   aggdAlpha f4, aggdN f4, aggdBl f4, aggdBl f4]

/-- The feature row computed for the patch whose top-left corner is `ji`
(line 139-144): a `p × p` window of the field, fed through
`_niqe_extract_subband_feats`. -/
def patchFeatsAt (img : ℕ → ℕ → ℝ) (p : ℕ) (ji : ℕ × ℕ) : List ℝ :=
  match p with
  | 0 => []
  | q + 1 =>
      niqe_extract_subband_feats fun (a : Fin (q + 1)) (b : Fin (q + 1)) =>
        img (ji.1 + (a : ℕ)) (ji.2 + (b : ℕ))

/-- `extract_on_patches` (lines 133-146) over an `h × w` field: one feature
row per tiled patch. -/
def extract_on_patches (img : ℕ → ℕ → ℝ) (h w p : ℕ) : List (List ℝ) :=
  (patchOrigins h w p).map (patchFeatsAt img p)

/-! ### The Gaussian window (`gen_gauss_window`, lines 89-103) -/

/-- The unnormalised weight written at index `i` by the loop on
lines 93-99: the centre entry is `1 = exp 0` and index `lw ± ii` receives
`exp(-ii²/(2σ²))`, i.e. index `i` holds `exp(-(i-lw)²/(2σ²))`. -/
def gauss_weight (lw : ℕ) (sigma : ℝ) (i : ℕ) : ℝ :=
  Real.exp (-(1 / 2) * ((i : ℝ) - (lw : ℝ)) ^ 2 / sigma ^ 2)

/-- `gen_gauss_window(lw, sigma)` (lines 89-103): the `2·lw+1` weights,
divided by their accumulated sum (lines 100-102). -/
def gen_gauss_window (lw : ℕ) (sigma : ℝ) : List ℝ :=
  ((List.range (2 * lw + 1)).map (gauss_weight lw sigma)).map
    fun x => x / ((List.range (2 * lw + 1)).map (gauss_weight lw sigma)).sum

/-! ### Sample statistics and the final score (lines 205-213) -/

/-- `sample_mu = np.mean(feats, axis=0)` (line 206) for a feature matrix
with `n` rows of 36 columns. -/
def sample_mu {n : ℕ} (feats : Fin n → Fin 36 → ℝ) (a : Fin 36) : ℝ :=
  (∑ i, feats i a) / n

/-- `sample_cov = np.cov(feats.T)` (line 207): the unbiased sample
covariance of the 36 feature columns over the `n` patches. -/
def sample_cov {n : ℕ} (feats : Fin n → Fin 36 → ℝ) :
    Matrix (Fin 36) (Fin 36) ℝ :=
  Matrix.of fun a b =>
    (∑ i, (feats i a - sample_mu feats a) * (feats i b - sample_mu feats b)) /
      ((n : ℝ) - 1)

/-- The centred data matrix underlying `sample_cov`. -/
def devMatrix {n : ℕ} (feats : Fin n → Fin 36 → ℝ) :
    Matrix (Fin n) (Fin 36) ℝ :=
  Matrix.of fun i a => feats i a - sample_mu feats a

/-- `covmat = (pop_cov + sample_cov) / 2.0` (line 210). -/
def covAvg {n : ℕ} (pop_cov : Matrix (Fin 36) (Fin 36) ℝ)
    (feats : Fin n → Fin 36 → ℝ) : Matrix (Fin 36) (Fin 36) ℝ :=
  Matrix.of fun a b => (pop_cov a b + sample_cov feats a b) / 2

open Matrix in
/-- The four Penrose conditions characterising
`scipy.linalg.pinv(covmat)` (line 211): the Moore-Penrose pseudo-inverse
is the unique matrix satisfying them. -/
def IsMoorePenrose {m : Type} [Fintype m] [DecidableEq m]
    (A B : Matrix m m ℝ) : Prop :=
  A * B * A = A ∧ B * A * B = B ∧ (A * B)ᵀ = A * B ∧ (B * A)ᵀ = B * A

/-- `X = sample_mu - pop_mu` (line 209). -/
def Xdiff {n : ℕ} (pop_mu : Fin 36 → ℝ) (feats : Fin n → Fin 36 → ℝ) :
    Fin 36 → ℝ :=
  fun a => sample_mu feats a - pop_mu a

open Matrix in
/-- `niqe_score = np.sqrt(X · pinvmat · X)` (line 212). -/
def niqe_score {n : ℕ} (pop_mu : Fin 36 → ℝ) (feats : Fin n → Fin 36 → ℝ)
    (pinvmat : Matrix (Fin 36) (Fin 36) ℝ) : ℝ :=
  Real.sqrt (Xdiff pop_mu feats ⬝ᵥ pinvmat.mulVec (Xdiff pop_mu feats))

/-- Concrete feature matrix (two all-zero rows) used to instantiate the
score-nonnegativity theorem. -/
def w7feats : Fin 2 → Fin 36 → ℝ := fun _ _ => 0

/-- Concrete pseudo-inverse witness: with `pop_cov = 1` and all-zero
features, `covmat = (1/2)·1` and its pseudo-inverse is `2·1`. -/
def w7pinv : Matrix (Fin 36) (Fin 36) ℝ := (2 : ℝ) • 1

end

/-! ## Theorems -/

/-- When both asserts pass, the candidate scan returns the largest
qualifying candidate of the descending list. -/
theorem autoScan_spec (w h : ℕ) (hw : 18 ≤ w) (hh : 18 ≤ h) :
    ∃ c : ℕ, c ∈ patch_sizes ∧ autoScan w h patch_sizes = (c : ℤ) ∧
      2 * c + 1 < w ∧ 2 * c + 1 < h ∧
      ∀ d ∈ patch_sizes, 2 * d + 1 < w → 2 * d + 1 < h → d ≤ c := by
  simp only [patch_sizes, autoScan]
  split_ifs with h1 h2 h3 h4 h5 h6
  · exact ⟨96, by simp, rfl, h1.1, h1.2, by intro d hd; fin_cases hd <;> omega⟩
  · refine ⟨64, by simp, rfl, h2.1, h2.2, ?_⟩
    intro d hd; fin_cases hd <;> omega
  · refine ⟨48, by simp, rfl, h3.1, h3.2, ?_⟩
    intro d hd; fin_cases hd <;> omega
  · refine ⟨32, by simp, rfl, h4.1, h4.2, ?_⟩
    intro d hd; fin_cases hd <;> omega
  · refine ⟨16, by simp, rfl, h5.1, h5.2, ?_⟩
    intro d hd; fin_cases hd <;> omega
  · refine ⟨8, by simp, rfl, h6.1, h6.2, ?_⟩
    intro d hd; fin_cases hd <;> omega
  · exfalso; omega

/-- A successful auto resolution always returns one of the listed
candidates (never the `-1` sentinel), and it satisfies the size bound. -/
theorem get_auto_ok {w h : ℕ} {p : ℤ}
    (hp : get_auto_patch_size w h = Except.ok p) :
    ∃ c : ℕ, c ∈ patch_sizes ∧ p = (c : ℤ) ∧
      2 * c + 1 < w ∧ 2 * c + 1 < h ∧
      ∀ d ∈ patch_sizes, 2 * d + 1 < w → 2 * d + 1 < h → d ≤ c := by
  unfold get_auto_patch_size at hp
  split_ifs at hp with hwh
  · obtain ⟨c, hc, he, h1, h2, h3⟩ := autoScan_spec w h hwh.1 hwh.2
    exact ⟨c, hc, by injection hp with hp; omega, h1, h2, h3⟩

/-- Idempotence of the lazy parameter load. -/
theorem loadIfNeeded_idem {P : Type} (fileParams : P) (s : CalcState P) :
    loadIfNeeded fileParams (loadIfNeeded fileParams s) =
      loadIfNeeded fileParams s := by
  cases s with
  | mk o => cases o <;> rfl

/-- A scoring call started from an already-loaded state behaves exactly as
one started from the original state. -/
theorem niqeM_load_stable {P S : Type} (fileParams : P)
    (scoreOf : P → ℕ → ℕ → S) (mode : PatchMode) (s : CalcState P)
    (M N : ℕ) :
    niqeM fileParams scoreOf mode (loadIfNeeded fileParams s) M N =
      niqeM fileParams scoreOf mode s M N := by
  unfold niqeM
  rw [loadIfNeeded_idem]

/-- Claim C4: a failing per-image scoring call surfaces as a typed error
(an assertion / exception constructor of `Err`), never as the reachable
`exit(0)` process termination, and never through the `-1` sentinel of
`get_auto_patch_size` (whose successful results are always ≥ 8); in auto
mode a too-small image fails with the `get_auto_patch_size` assertion. -/
theorem claim_C4_typed_errors {P S : Type} (fileParams : P)
    (scoreOf : P → ℕ → ℕ → S) (mode : PatchMode) (s : CalcState P)
    (M N : ℕ) :
    (niqeM fileParams scoreOf mode s M N).2 ≠ Except.error Err.exitZero ∧
    (∀ v : ℤ, get_auto_patch_size N M = Except.ok v → 8 ≤ v) ∧
    (mode = PatchMode.auto → (M ≤ 17 ∨ N ≤ 17) →
      (niqeM fileParams scoreOf mode s M N).2 =
        Except.error Err.autoAssert) := by
  refine ⟨?_, ?_, ?_⟩
  · unfold niqeM
    cases hres : resolvePatchSize mode M N with
    | error e =>
      have he : e ≠ Err.exitZero := by
        cases mode with
        | auto =>
          unfold resolvePatchSize get_auto_patch_size at hres
          split_ifs at hres with h
          injection hres with h1; simp [← h1]
        | fixed p => simp [resolvePatchSize] at hres
      simp only []
      intro hcontra
      exact he (by injection hcontra)
    | ok p =>
      have hp0 : 0 ≤ p := by
        cases mode with
        | auto =>
          obtain ⟨c, _, he, _, _, _⟩ := get_auto_ok hres
          omega
        | fixed q =>
          simp only [resolvePatchSize] at hres
          injection hres with h1; omega
      simp only []
      split_ifs with hsz
      · unfold get_patches_size_guard
        have hM : ¬((M : ℤ) < p ∨ (N : ℤ) < p) := by omega
        rw [if_neg hM]
        split_ifs with hz <;> simp
      · simp
  · intro v hv
    obtain ⟨c, hc, he, _, _, _⟩ := get_auto_ok hv
    have : 8 ≤ c := by fin_cases hc <;> omega
    omega
  · intro hmode hsmall
    subst hmode
    unfold niqeM resolvePatchSize get_auto_patch_size
    rw [if_neg (by omega)]

/-- Concrete instantiation of claim C4: a 100×100 image in auto mode
resolves, never reaches the `exit(0)` path, and scores. -/
theorem claim_C4_witness :
    (niqeM (0 : ℕ) (fun _ _ _ => (0 : ℕ)) PatchMode.auto ⟨none⟩ 100 100).2 ≠
        Except.error Err.exitZero ∧
    (niqeM (0 : ℕ) (fun _ _ _ => (0 : ℕ)) PatchMode.auto ⟨none⟩ 100 100).2 =
        Except.ok 0 :=
  ⟨(claim_C4_typed_errors 0 (fun _ _ _ => 0) PatchMode.auto ⟨none⟩ 100 100).1,
   rfl⟩

/-- Claim C5: in auto mode the resolved patch size is the largest
candidate of `[96, 64, 48, 32, 16, 8]` such that both dimensions strictly
exceed `2·candidate + 1`, and when no candidate qualifies the call fails
(with the `get_auto_patch_size` assertion) instead of proceeding. -/
theorem claim_C5_auto_patch_size (w h : ℕ) :
    (∀ p : ℤ, get_auto_patch_size w h = Except.ok p →
      ∃ c : ℕ, c ∈ patch_sizes ∧ p = (c : ℤ) ∧
        2 * c + 1 < w ∧ 2 * c + 1 < h ∧
        ∀ d ∈ patch_sizes, 2 * d + 1 < w → 2 * d + 1 < h → d ≤ c) ∧
    ((∀ c ∈ patch_sizes, ¬(2 * c + 1 < w ∧ 2 * c + 1 < h)) →
      get_auto_patch_size w h = Except.error Err.autoAssert) := by
  constructor
  · intro p hp; exact get_auto_ok hp
  · intro hnone
    have h8 := hnone 8 (by simp [patch_sizes])
    unfold get_auto_patch_size
    rw [if_neg (by omega)]

/-- Concrete instantiation of claim C5: on a 200×200 image the resolution
succeeds with the largest candidate 96; on a 10×10 image it fails. -/
theorem claim_C5_witness :
    get_auto_patch_size 10 10 = Except.error Err.autoAssert ∧
    (∃ c : ℕ, c ∈ patch_sizes ∧ (96 : ℤ) = (c : ℤ) ∧
      2 * c + 1 < 200 ∧ 2 * c + 1 < 200 ∧
      ∀ d ∈ patch_sizes, 2 * d + 1 < 200 → 2 * d + 1 < 200 → d ≤ c) :=
  ⟨(claim_C5_auto_patch_size 10 10).2 (by decide),
   (claim_C5_auto_patch_size 200 200).1 96 rfl⟩

/-- Claim C6: whenever a dimension fails to exceed `2·patchSize + 1` for
the resolved patch size, the scoring call fails with the size assertion;
the failure only performs the (idempotent, value-preserving) lazy
parameter load, so the cached statistics are uncorrupted and any
subsequent call behaves as if the failed call had never happened. -/
theorem claim_C6_too_small_atomic {P S : Type} (fileParams : P)
    (scoreOf : P → ℕ → ℕ → S) (mode : PatchMode) (s : CalcState P)
    (M N : ℕ) (p : ℤ)
    (h1 : resolvePatchSize mode M N = Except.ok p)
    (h2 : ¬(2 * p + 1 < (M : ℤ) ∧ 2 * p + 1 < (N : ℤ))) :
    (niqeM fileParams scoreOf mode s M N).2 = Except.error Err.sizeAssert ∧
    (niqeM fileParams scoreOf mode s M N).1 = loadIfNeeded fileParams s ∧
    (∀ q, s.params = some q → (niqeM fileParams scoreOf mode s M N).1 = s) ∧
    (∀ M2 N2, niqeM fileParams scoreOf mode
        ((niqeM fileParams scoreOf mode s M N).1) M2 N2 =
      niqeM fileParams scoreOf mode s M2 N2) := by
  have hfst : (niqeM fileParams scoreOf mode s M N) =
      (loadIfNeeded fileParams s, Except.error Err.sizeAssert) := by
    unfold niqeM
    rw [h1]
    simp only [if_neg h2]
  refine ⟨by rw [hfst], by rw [hfst], ?_, ?_⟩
  · intro q hq
    rw [hfst]
    obtain ⟨o⟩ := s
    cases o with
    | none => exact absurd hq (by simp)
    | some r => rfl
  · intro M2 N2
    rw [hfst]
    exact niqeM_load_stable fileParams scoreOf mode s M2 N2

/-- Concrete instantiation of claim C6: a 20×20 image with a configured
patch size of 50 fails the size assertion and leaves behaviour
unchanged. -/
theorem claim_C6_witness :
    (niqeM (7 : ℕ) (fun q _ _ => q) (PatchMode.fixed 50) ⟨none⟩ 20 20).2 =
      Except.error Err.sizeAssert :=
  (claim_C6_too_small_atomic 7 (fun q _ _ => q) (PatchMode.fixed 50) ⟨none⟩
    20 20 50 rfl (by decide)).1

/-! ### Patch counting -/

/-- The tiling loop steps through exactly `h / p` offsets per dimension. -/
theorem perDimPatchCount_eq_div (h p : ℕ) (hp : 0 < p) :
    perDimPatchCount h p = h / p := by
  unfold perDimPatchCount
  split_ifs with hlt
  · exact (Nat.div_eq_of_lt hlt).symm
  · exact (Nat.div_eq_sub_div hp (le_of_not_lt hlt)).symm

/-- Cropping removes the remainder: the cropped dimension is
`p * (h / p)`. -/
theorem croppedDim_eq (h p : ℕ) :
    croppedDim h p = p * (h / p) := by
  have := Nat.mod_add_div h p
  unfold croppedDim
  omega

/-- The number of visited patch origins is the product of the per-axis
counts. -/
theorem patchOrigins_length (h w p : ℕ) :
    (patchOrigins h w p).length =
      perDimPatchCount h p * perDimPatchCount w p := by
  simp [patchOrigins, Function.comp_def, List.map_const', List.sum_replicate,
    smul_eq_mul]

/-- Per-axis patch count after cropping equals the floored quotient. -/
theorem perDim_cropped (h p : ℕ) (hp : 0 < p) :
    perDimPatchCount (croppedDim h p) p = h / p := by
  rw [perDimPatchCount_eq_div _ _ hp, croppedDim_eq,
    Nat.mul_div_cancel_left _ hp]

/-- Claim C9: the patch extractor produces exactly
`(h / p) * (w / p)` feature rows (for a dividing patch size this is
`(h/p)·(w/p)` exactly); cropping only ever removes trailing rows/columns
(never pads); and the visited patches are the non-overlapping tiles with
top-left corners at the multiples of `p`. -/
theorem claim_C9_patch_count (img : ℕ → ℕ → ℝ) (h w p : ℕ) (hp : 0 < p) :
    (extract_on_patches img h w p).length = (h / p) * (w / p) ∧
    croppedDim h p ≤ h ∧ croppedDim w p ≤ w ∧
    (extract_on_patches img (croppedDim h p) (croppedDim w p) p).length =
      (h / p) * (w / p) ∧
    (∀ j i : ℕ, (j, i) ∈ patchOrigins h w p ↔
      ∃ a, a < h / p ∧ ∃ b, b < w / p ∧ j = a * p ∧ i = b * p) := by
  refine ⟨?_, Nat.sub_le _ _, Nat.sub_le _ _, ?_, ?_⟩
  · rw [extract_on_patches, List.length_map, patchOrigins_length,
      perDimPatchCount_eq_div _ _ hp, perDimPatchCount_eq_div _ _ hp]
  · rw [extract_on_patches, List.length_map, patchOrigins_length,
      perDim_cropped _ _ hp, perDim_cropped _ _ hp]
  · intro j i
    simp only [patchOrigins, List.mem_flatMap, List.mem_map, List.mem_range,
      Prod.mk.injEq, perDimPatchCount_eq_div _ _ hp]
    constructor
    · rintro ⟨a, ha, b, hb, rfl, rfl⟩
      exact ⟨a, ha, b, hb, rfl, rfl⟩
    · rintro ⟨a, ha, b, hb, rfl, rfl⟩
      exact ⟨a, ha, b, hb, rfl, rfl⟩

/-- Concrete instantiation of claim C9: a 10×7 field with patch size 3
yields `3 · 2 = 6` patches. -/
theorem claim_C9_witness :
    (extract_on_patches (fun _ _ => (0 : ℝ)) 10 7 3).length = 6 := by
  have h := (claim_C9_patch_count (fun _ _ => (0 : ℝ)) 10 7 3
    (by norm_num)).1
  simpa using h

/-- Counterexample to claim C8: with the odd configured patch size 3 on a
15×15 image (which passes the `2·3+1 < 15` size checks), the
full-resolution extractor visits 25 patches while the half-resolution
extractor visits 64, so the two feature matrices cannot be horizontally
concatenated. -/
theorem claim_C8_counterexample :
    2 * 3 + 1 < 15 ∧
    lvl1PatchCount 15 15 3 = 25 ∧
    lvl2PatchCount 15 15 3 = 64 ∧
    lvl1PatchCount 15 15 3 ≠ lvl2PatchCount 15 15 3 := by decide

/-- One axis of the amended claim C8: for an even positive patch size the
half-resolution tiling has exactly as many steps as the full-resolution
tiling. -/
theorem perDim_half (h p : ℕ) (hp : 0 < p) (he : p % 2 = 0) :
    perDimPatchCount (halfDim (croppedDim h p)) (p / 2) =
      perDimPatchCount (croppedDim h p) p := by
  have hq : 0 < p / 2 := by omega
  have hp2 : 2 * (p / 2) = p := by omega
  rw [perDim_cropped _ _ hp, croppedDim_eq]
  have hcrop : p * (h / p) = 2 * (p / 2 * (h / p)) := by
    rw [← mul_assoc, hp2]
  have heven : halfDim (p * (h / p)) = p / 2 * (h / p) := by
    unfold halfDim
    rw [hcrop, if_pos (Nat.mul_mod_right 2 _),
      Nat.mul_div_cancel_left _ (by norm_num : (0:ℕ) < 2)]
  rw [heven, perDimPatchCount_eq_div _ _ hq, Nat.mul_div_cancel_left _ hq]

/-- Amended claim C8: for every image and every even positive resolved
patch size (in particular every auto-resolved one — all candidates are
even), the full-resolution and half-resolution feature matrices have the
same number of rows, so the 36-column horizontal concatenation is
well-defined.  (The original claim, quantifying over all resolved patch
sizes, fails for odd explicit sizes: see the counterexample.) -/
theorem claim_C8_amended (h w p : ℕ) (hp : 0 < p) (he : p % 2 = 0) :
    lvl1PatchCount h w p = lvl2PatchCount h w p := by
  unfold lvl1PatchCount lvl2PatchCount
  rw [perDim_half h p hp he, perDim_half w p hp he]

/-- Concrete instantiation of amended claim C8: patch size 8 on a 20×20
image gives equally many rows at both scales. -/
theorem claim_C8_witness :
    lvl1PatchCount 20 20 8 = lvl2PatchCount 20 20 8 ∧
    lvl1PatchCount 20 20 8 = 4 :=
  ⟨claim_C8_amended 20 20 8 (by decide) (by decide), by decide⟩

/-! ### The per-patch feature vector -/

/-- Claim C1: for every patch (of any size and content, including all-zero
patches) the per-scale feature vector has exactly 18 entries, laid out as
`[alpha_mscn, (bl+br)/2, alpha_H, N_H, bl_H, br_H, alpha_V, N_V, bl_V,
br_V, alpha_D1, N_D1, bl_D1, bl_D1, alpha_D2, N_D2, bl_D2, bl_D2]`; in
particular the fourth slot of each diagonal quadruple repeats `bl` where
`br` would be expected. -/
theorem claim_C1_feature_vector {m n : ℕ}
    (p : Fin (m + 1) → Fin (n + 1) → ℝ) :
    (niqe_extract_subband_feats p).length = 18 ∧
    niqe_extract_subband_feats p =
      [aggdAlpha (flatten2d p),
       (aggdBl (flatten2d p) + aggdBr (flatten2d p)) / 2,
       aggdAlpha (flatten2d (pp_H p)), aggdN (flatten2d (pp_H p)),
       aggdBl (flatten2d (pp_H p)), aggdBr (flatten2d (pp_H p)),
       aggdAlpha (flatten2d (pp_V p)), aggdN (flatten2d (pp_V p)),
       aggdBl (flatten2d (pp_V p)), aggdBr (flatten2d (pp_V p)),
       aggdAlpha (flatten2d (pp_D1 p)), aggdN (flatten2d (pp_D1 p)),
       aggdBl (flatten2d (pp_D1 p)), aggdBl (flatten2d (pp_D1 p)),
       aggdAlpha (flatten2d (pp_D2 p)), aggdN (flatten2d (pp_D2 p)),
       aggdBl (flatten2d (pp_D2 p)), aggdBl (flatten2d (pp_D2 p))] ∧
    (niqe_extract_subband_feats p)[13]? =
      some (aggdBl (flatten2d (pp_D1 p))) ∧
    (niqe_extract_subband_feats p)[17]? =
      some (aggdBl (flatten2d (pp_D2 p))) :=
  ⟨rfl, rfl, rfl, rfl⟩

/-! ### The AGGD fitter -/

/-- A list of non-negative reals with zero sum is all zeros. -/
theorem sum_eq_zero_of_nonneg {l : List ℝ} (h0 : ∀ x ∈ l, 0 ≤ x)
    (hs : l.sum = 0) : ∀ x ∈ l, x = 0 := by
  induction l with
  | nil => simp
  | cons y ys ih =>
    have hy : 0 ≤ y := h0 y (by simp)
    have hys : 0 ≤ ys.sum :=
      List.sum_nonneg fun x hx => h0 x (by simp [hx])
    have hsum : y + ys.sum = 0 := by simpa using hs
    have hy0 : y = 0 := by linarith
    have hys0 : ys.sum = 0 := by linarith
    intro x hx
    rcases List.mem_cons.mp hx with rfl | hx
    · exact hy0
    · exact ih (fun z hz => h0 z (by simp [hz])) hys0 x hx

/-- On an all-zero field the right (non-negative) scale is zero. -/
theorem right_mean_sqrt_allzero (patch : List ℝ)
    (hz : ∀ x ∈ patch, x = 0) : right_mean_sqrt patch = 0 := by
  unfold right_mean_sqrt
  split_ifs with h
  · rfl
  · have hzero : ∀ y ∈ rightData patch, y = 0 := by
      intro y hy
      obtain ⟨x, hx, rfl⟩ := List.mem_map.mp hy
      have := hz x (List.mem_of_mem_filter hx)
      simp [this]
    have : npAverage (rightData patch) = 0 := by
      rw [npAverage, List.sum_eq_zero hzero, zero_div]
    rw [this, Real.sqrt_zero]

/-- On an all-zero field the left (strictly negative) scale is zero. -/
theorem left_mean_sqrt_allzero (patch : List ℝ)
    (hz : ∀ x ∈ patch, x = 0) : left_mean_sqrt patch = 0 := by
  unfold left_mean_sqrt
  split_ifs with h
  · rfl
  · have hzero : ∀ y ∈ leftData patch, y = 0 := by
      intro y hy
      obtain ⟨x, hx, rfl⟩ := List.mem_map.mp hy
      have := hz x (List.mem_of_mem_filter hx)
      simp [this]
    have : npAverage (leftData patch) = 0 := by
      rw [npAverage, List.sum_eq_zero hzero, zero_div]
    rw [this, Real.sqrt_zero]

/-- The right scale of the empty field is zero. -/
theorem right_mean_sqrt_nil : right_mean_sqrt [] = 0 := by
  simp [right_mean_sqrt, rightData]

/-- A zero mean of squares forces every sample to be zero. -/
theorem allzero_of_imdata2_mean_zero (patch : List ℝ) (hne : patch ≠ [])
    (hm : imdata2_mean patch = 0) : ∀ x ∈ patch, x = 0 := by
  have hlen : ((patch.map fun x => x ^ 2).length : ℝ) ≠ 0 := by
    simp only [List.length_map, ne_eq, Nat.cast_eq_zero]
    exact fun h => hne (List.eq_nil_of_length_eq_zero h)
  have hsum : (patch.map fun x => x ^ 2).sum = 0 := by
    unfold imdata2_mean npAverage at hm
    rcases div_eq_zero_iff.mp hm with h | h
    · exact h
    · exact absurd h hlen
  intro x hx
  have hx2 : x ^ 2 = 0 := by
    refine sum_eq_zero_of_nonneg ?_ hsum (x ^ 2) (List.mem_map_of_mem _ hx)
    intro y hy
    obtain ⟨z, _, rfl⟩ := List.mem_map.mp hy
    positivity
  exact pow_eq_zero_iff (by norm_num) |>.mp hx2

/-- Bound for the argmin scan: the result is the initial index or one of
the scanned positions. -/
theorem npArgminAux_bound (xs : List FV) :
    ∀ bi best i, npArgminAux xs bi best i = bi ∨
      (i ≤ npArgminAux xs bi best i ∧
        npArgminAux xs bi best i < i + xs.length) := by
  induction xs with
  | nil => intro bi best i; left; rfl
  | cons x xs ih =>
    intro bi best i
    unfold npArgminAux
    split_ifs with hcond
    · rcases ih i x (i + 1) with h | ⟨h1, h2⟩
      · right
        rw [h]
        simp only [List.length_cons]
        omega
      · right
        simp only [List.length_cons]
        omega
    · rcases ih bi best (i + 1) with h | ⟨h1, h2⟩
      · left; exact h
      · right
        simp only [List.length_cons]
        omega

/-- `np.argmin` of a nonempty list is a valid index. -/
theorem npArgmin_lt_length (l : List FV) (hne : l ≠ []) :
    npArgmin l < l.length := by
  cases l with
  | nil => exact absurd rfl hne
  | cons x xs =>
    show npArgminAux xs 0 x 1 < (x :: xs).length
    rcases npArgminAux_bound xs 0 x 1 with h | ⟨h1, h2⟩
    · rw [h]; simp
    · simp only [List.length_cons]; omega

/-- The grid search always lands inside the shape grid. -/
theorem alpha_pos_lt (patch : List ℝ) : alpha_pos patch < gammaRangeLen := by
  have hlen : (sq_diffs patch).length = gammaRangeLen := by
    simp [sq_diffs]
  have hne : sq_diffs patch ≠ [] := by
    intro h
    rw [h] at hlen
    simp [gammaRangeLen] at hlen
  have := npArgmin_lt_length _ hne
  rw [hlen] at this
  exact this

/-- Every grid entry is at least 0.2. -/
theorem gamma_range_lb (k : ℕ) : (0.2 : ℝ) ≤ gamma_range k := by
  unfold gamma_range
  have : (0 : ℝ) ≤ (k : ℝ) * 0.001 := by positivity
  linarith

/-- Every grid entry with a valid index is below 10. -/
theorem gamma_range_ub (k : ℕ) (hk : k < gammaRangeLen) :
    gamma_range k < 10 := by
  unfold gamma_range
  have hk9 : k ≤ 9799 := by
    unfold gammaRangeLen at hk
    omega
  have hk' : (k : ℝ) ≤ 9799 := by exact_mod_cast hk9
  have : (k : ℝ) * 0.001 ≤ 9799 * 0.001 :=
    mul_le_mul_of_nonneg_right hk' (by norm_num)
  linarith

/-- The only unguarded division of the normalisation step has a nonzero
denominator: `(gamma_hat^2 + 1)^2` is never the finite value 0. -/
theorem rhat_norm_den_ne (patch : List ℝ) :
    rhat_norm_den patch ≠ FV.fin 0 := by
  unfold rhat_norm_den gamma_hat
  split_ifs with h
  · have hne : ((left_mean_sqrt patch / right_mean_sqrt patch) ^ 2 + 1) ^ 2 ≠ 0 := by
      positivity
    simp [fvPow, fvAdd, hne]
  · simp [fvPow, fvAdd]

/-- Claim C3: on every input field the AGGD fitter totalises — the shape
parameter is the grid entry at a valid index (hence finite, inside
`[0.2, 10)`), every unguarded division has a nonzero denominator, and for
an all-zero field both scales are zero. -/
theorem claim_C3_aggd_total (patch : List ℝ) :
    (∃ k, k < gammaRangeLen ∧ aggdAlpha patch = gamma_range k) ∧
    (0.2 : ℝ) ≤ aggdAlpha patch ∧ aggdAlpha patch < 10 ∧
    rhat_norm_den patch ≠ FV.fin 0 ∧
    Real.Gamma (1 / aggdAlpha patch) ≠ 0 ∧
    Real.Gamma (3 / aggdAlpha patch) ≠ 0 ∧
    Real.sqrt (Real.Gamma (3 / aggdAlpha patch)) ≠ 0 ∧
    ((∀ x ∈ patch, x = 0) →
      left_mean_sqrt patch = 0 ∧ right_mean_sqrt patch = 0) := by
  have halpha : aggdAlpha patch = gamma_range (alpha_pos patch) := rfl
  have hlb : (0.2 : ℝ) ≤ aggdAlpha patch := by
    rw [halpha]; exact gamma_range_lb _
  have hub : aggdAlpha patch < 10 := by
    rw [halpha]; exact gamma_range_ub _ (alpha_pos_lt patch)
  have hapos : 0 < aggdAlpha patch := by linarith
  have hg3 : 0 < Real.Gamma (3 / aggdAlpha patch) :=
    Real.Gamma_pos_of_pos (by positivity)
  refine ⟨⟨alpha_pos patch, alpha_pos_lt patch, halpha⟩, hlb, hub,
    rhat_norm_den_ne patch, ?_, ne_of_gt hg3, ?_, ?_⟩
  · exact ne_of_gt (Real.Gamma_pos_of_pos (by positivity))
  · exact ne_of_gt (Real.sqrt_pos.mpr hg3)
  · intro hz
    exact ⟨left_mean_sqrt_allzero patch hz, right_mean_sqrt_allzero patch hz⟩

/-- Concrete instantiation of claim C3: on the all-zero singleton field
both scales vanish. -/
theorem claim_C3_witness :
    left_mean_sqrt [(0 : ℝ)] = 0 ∧ right_mean_sqrt [(0 : ℝ)] = 0 :=
  (claim_C3_aggd_total [(0 : ℝ)]).2.2.2.2.2.2.2 (by simp)

/-- Counterexample to claim C2: on the all-zero field `[0]` — where the
non-negative side is present but has zero energy, so `rightScale = 0` —
`rhat_norm` evaluates to NaN (via `inf/inf`), not to an infinity-driven
value, refuting the clause that the normalised ratio is never NaN. -/
theorem claim_C2_counterexample :
    rhat_norm [(0 : ℝ)] = FV.nan ∧ right_mean_sqrt [(0 : ℝ)] = 0 := by
  have hrd : rightData [(0 : ℝ)] = [0] := by
    norm_num [rightData, List.filter_cons]
  have hr : right_mean_sqrt [(0 : ℝ)] = 0 := by
    rw [right_mean_sqrt, if_neg (by rw [hrd]; simp), hrd]
    simp [npAverage]
  have hg : gamma_hat [(0 : ℝ)] = FV.inf := by
    simp [gamma_hat, hr]
  have hm : imdata2_mean [(0 : ℝ)] = 0 := by
    simp [imdata2_mean, npAverage]
  have hrh : r_hat [(0 : ℝ)] = FV.inf := by
    simp [r_hat, hm]
  refine ⟨?_, hr⟩
  rw [rhat_norm, rhat_norm_num, rhat_norm_den, hg, hrh]
  simp [fvPow, fvAdd, fvMul, fvDiv]

/-- Amended claim C2: the two guarded divisions do route to `+infinity`
(`gammaHat = inf` when `rightScale = 0`, `rHat = inf` when the mean of
squares is 0), but `rhat_norm` is then NaN — it is NaN exactly when
`rightScale = 0`, because `inf/inf` and `x * nan` produce NaN — and the
grid search nonetheless stays well-defined: its argmin index is always
inside the shape grid. -/
theorem claim_C2_amended (patch : List ℝ) :
    (right_mean_sqrt patch = 0 → gamma_hat patch = FV.inf) ∧
    (imdata2_mean patch = 0 → r_hat patch = FV.inf) ∧
    (rhat_norm patch = FV.nan ↔ right_mean_sqrt patch = 0) ∧
    alpha_pos patch < gammaRangeLen := by
  refine ⟨fun hr => by simp [gamma_hat, hr],
    fun hm => by simp [r_hat, hm], ?_, alpha_pos_lt patch⟩
  constructor
  · intro hnan
    by_contra hr
    have hg : gamma_hat patch =
        FV.fin (left_mean_sqrt patch / right_mean_sqrt patch) := by
      simp [gamma_hat, hr]
    set g : ℝ := left_mean_sqrt patch / right_mean_sqrt patch with hgdef
    have hnum : rhat_norm_num patch = FV.fin ((g ^ 3 + 1) * (g + 1)) := by
      simp [rhat_norm_num, hg, fvPow, fvAdd, fvMul]
    have hdenne : ((g ^ 2 + 1) ^ 2 : ℝ) ≠ 0 := by positivity
    have hden : rhat_norm_den patch = FV.fin ((g ^ 2 + 1) ^ 2) := by
      simp [rhat_norm_den, hg, fvPow, fvAdd]
    have hm : imdata2_mean patch ≠ 0 := by
      intro hm0
      apply hr
      rcases eq_or_ne patch [] with rfl | hne
      · exact right_mean_sqrt_nil
      · exact right_mean_sqrt_allzero patch
          (allzero_of_imdata2_mean_zero patch hne hm0)
    have hrh : r_hat patch =
        FV.fin ((npAverage (patch.map fun x => |x|)) ^ 2 /
          imdata2_mean patch) := by
      simp [r_hat, hm]
    rw [rhat_norm, hrh, hnum, hden] at hnan
    simp [fvDiv, hdenne, fvMul] at hnan
  · intro hr
    have hg : gamma_hat patch = FV.inf := by simp [gamma_hat, hr]
    have hnum : rhat_norm_num patch = FV.inf := by
      simp [rhat_norm_num, hg, fvPow, fvAdd, fvMul]
    have hden : rhat_norm_den patch = FV.inf := by
      simp [rhat_norm_den, hg, fvPow, fvAdd]
    rw [rhat_norm, hnum, hden]
    unfold r_hat
    split_ifs <;> simp [fvDiv, fvMul]

/-- Concrete instantiation of amended claim C2: on the field `[-1]` the
non-negative side is empty, `gammaHat` is `+inf` and `rhat_norm` is
NaN. -/
theorem claim_C2_witness :
    gamma_hat [(-1 : ℝ)] = FV.inf ∧ rhat_norm [(-1 : ℝ)] = FV.nan := by
  have h0 : right_mean_sqrt [(-1 : ℝ)] = 0 := by
    norm_num [right_mean_sqrt, rightData, List.filter_cons]
  exact ⟨(claim_C2_amended [(-1 : ℝ)]).1 h0,
    ((claim_C2_amended [(-1 : ℝ)]).2.2.1).mpr h0⟩

/-! ### The Gaussian window -/

/-- Dividing every list entry by a constant divides the sum. -/
theorem list_sum_map_div (l : List ℝ) (c : ℝ) :
    (l.map fun x => x / c).sum = l.sum / c := by
  induction l with
  | nil => simp
  | cons y ys ih => simp [ih, add_div]

/-- Claim C10: for every `halfWidth ≥ 0` and `sigma > 0` the generated
window has length `2·halfWidth + 1`, is symmetric about its centre, and
its weights sum to exactly 1 after normalisation. -/
theorem claim_C10_gauss_window (lw : ℕ) (sigma : ℝ) (hs : 0 < sigma) :
    (gen_gauss_window lw sigma).length = 2 * lw + 1 ∧
    (∀ i, i ≤ 2 * lw →
      (gen_gauss_window lw sigma)[i]? =
        (gen_gauss_window lw sigma)[2 * lw - i]?) ∧
    (gen_gauss_window lw sigma).sum = 1 := by
  have hsum_pos :
      0 < ((List.range (2 * lw + 1)).map (gauss_weight lw sigma)).sum := by
    apply List.sum_pos
    · intro a ha
      obtain ⟨i, _, rfl⟩ := List.mem_map.mp ha
      exact Real.exp_pos _
    · simp
  refine ⟨by simp [gen_gauss_window], ?_, ?_⟩
  · intro i hi
    have hsym : gauss_weight lw sigma i = gauss_weight lw sigma (2 * lw - i) := by
      unfold gauss_weight
      congr 1
      have hcast : ((2 * lw - i : ℕ) : ℝ) = 2 * (lw : ℝ) - (i : ℝ) := by
        push_cast [Nat.cast_sub hi]
        ring
      rw [hcast]
      ring
    have hi1 : i < 2 * lw + 1 := by omega
    have hi2 : 2 * lw - i < 2 * lw + 1 := by omega
    simp only [gen_gauss_window, List.getElem?_map, List.getElem?_range, hi1,
      hi2, if_pos, Option.map_map]
    simp [hi1, hi2, hsym]
  · unfold gen_gauss_window
    rw [list_sum_map_div, div_self (ne_of_gt hsum_pos)]

/-- Concrete instantiation of claim C10: half-width 1 gives a window of
3 weights. -/
theorem claim_C10_witness : (gen_gauss_window 1 1).length = 3 := by
  have h := (claim_C10_gauss_window 1 1 (by norm_num)).1
  simpa using h

/-! ### The final score -/

section Score

open Matrix

variable {d : Type} [Fintype d] [DecidableEq d]

/-- For a symmetric matrix, the transpose of a Moore-Penrose
pseudo-inverse is again one. -/
theorem mp_transpose {A B : Matrix d d ℝ} (hA : Aᵀ = A)
    (h : IsMoorePenrose A B) : IsMoorePenrose A Bᵀ := by
  obtain ⟨h1, h2, h3, h4⟩ := h
  refine ⟨?_, ?_, ?_, ?_⟩
  · have key : (A * Bᵀ * A)ᵀ = A := by
      rw [Matrix.transpose_mul, Matrix.transpose_mul,
        Matrix.transpose_transpose, hA, ← Matrix.mul_assoc, h1]
    calc A * Bᵀ * A = ((A * Bᵀ * A)ᵀ)ᵀ := (Matrix.transpose_transpose _).symm
    _ = Aᵀ := by rw [key]
    _ = A := hA
  · have key : (Bᵀ * A * Bᵀ)ᵀ = B := by
      rw [Matrix.transpose_mul, Matrix.transpose_mul,
        Matrix.transpose_transpose, hA, ← Matrix.mul_assoc, h2]
    calc Bᵀ * A * Bᵀ = ((Bᵀ * A * Bᵀ)ᵀ)ᵀ := (Matrix.transpose_transpose _).symm
    _ = Bᵀ := by rw [key]
  · have e3l : (A * Bᵀ)ᵀ = B * A := by
      rw [Matrix.transpose_mul, Matrix.transpose_transpose, hA]
    have e3r : A * Bᵀ = B * A := by
      have : A * Bᵀ = (B * Aᵀ)ᵀ := by
        rw [Matrix.transpose_mul, Matrix.transpose_transpose]
      rw [this, hA, h4]
    rw [e3l, e3r]
  · have e4l : (Bᵀ * A)ᵀ = A * B := by
      rw [Matrix.transpose_mul, Matrix.transpose_transpose, hA]
    have e4r : Bᵀ * A = A * B := by
      have : Bᵀ * A = (Aᵀ * B)ᵀ := by
        rw [Matrix.transpose_mul, Matrix.transpose_transpose]
      rw [this, hA, h3]
    rw [e4l, e4r]

/-- Uniqueness of the Moore-Penrose pseudo-inverse. -/
theorem mp_unique {A B C : Matrix d d ℝ}
    (hB : IsMoorePenrose A B) (hC : IsMoorePenrose A C) : B = C := by
  obtain ⟨b1, b2, b3, b4⟩ := hB
  obtain ⟨c1, c2, c3, c4⟩ := hC
  have hBft : B = B * Bᵀ * Aᵀ := by
    calc B = B * A * B := b2.symm
    _ = B * (A * B) := by rw [Matrix.mul_assoc]
    _ = B * (A * B)ᵀ := by rw [b3]
    _ = B * (Bᵀ * Aᵀ) := by rw [Matrix.transpose_mul]
    _ = B * Bᵀ * Aᵀ := by rw [Matrix.mul_assoc]
  have hAt : Aᵀ = Aᵀ * (A * C) := by
    calc Aᵀ = (A * C * A)ᵀ := by rw [c1]
    _ = Aᵀ * (A * C)ᵀ := by rw [Matrix.transpose_mul]
    _ = Aᵀ * (A * C) := by rw [c3]
  have hBAC : B = B * A * C := by
    calc B = B * Bᵀ * Aᵀ := hBft
    _ = B * Bᵀ * (Aᵀ * (A * C)) := by rw [← hAt]
    _ = B * Bᵀ * Aᵀ * (A * C) := by rw [← Matrix.mul_assoc]
    _ = B * (A * C) := by rw [← hBft]
    _ = B * A * C := by rw [← Matrix.mul_assoc]
  have hCft : C = Aᵀ * Cᵀ * C := by
    calc C = C * A * C := c2.symm
    _ = (C * A)ᵀ * C := by rw [c4]
    _ = Aᵀ * Cᵀ * C := by rw [Matrix.transpose_mul]
  have hAt2 : Aᵀ = Aᵀ * Bᵀ * Aᵀ := by
    calc Aᵀ = (A * B * A)ᵀ := by rw [b1]
    _ = Aᵀ * (A * B)ᵀ := by rw [Matrix.transpose_mul]
    _ = Aᵀ * (Bᵀ * Aᵀ) := by rw [Matrix.transpose_mul]
    _ = Aᵀ * Bᵀ * Aᵀ := by rw [Matrix.mul_assoc]
  have hABt : Aᵀ * Bᵀ = B * A := by
    rw [← Matrix.transpose_mul, b4]
  have hACt : Aᵀ * Cᵀ = C * A := by
    rw [← Matrix.transpose_mul, c4]
  have hCBA : C = B * A * C := by
    calc C = Aᵀ * Cᵀ * C := hCft
    _ = Aᵀ * Bᵀ * Aᵀ * Cᵀ * C := by rw [← hAt2]
    _ = (Aᵀ * Bᵀ) * (Aᵀ * Cᵀ) * C := by
        simp only [Matrix.mul_assoc]
    _ = (B * A) * (C * A) * C := by rw [hABt, hACt]
    _ = B * A * (C * A * C) := by simp only [Matrix.mul_assoc]
    _ = B * A * C := by rw [c2]
  rw [hBAC, ← hCBA]

/-- The Moore-Penrose pseudo-inverse of a symmetric matrix is
symmetric. -/
theorem mp_symm {A B : Matrix d d ℝ} (hA : Aᵀ = A)
    (h : IsMoorePenrose A B) : Bᵀ = B :=
  mp_unique (mp_transpose hA h) h

/-- The quadratic form of the pseudo-inverse of a symmetric
positive-semidefinite matrix is non-negative. -/
theorem mp_psd {A B : Matrix d d ℝ} (hA : Aᵀ = A)
    (hpsd : ∀ v, 0 ≤ v ⬝ᵥ A.mulVec v) (h : IsMoorePenrose A B) :
    ∀ x, 0 ≤ x ⬝ᵥ B.mulVec x := by
  intro x
  have hBs : Bᵀ = B := mp_symm hA h
  have h2 : B * A * B = B := h.2.1
  have key : x ⬝ᵥ B.mulVec x =
      (B.mulVec x) ⬝ᵥ A.mulVec (B.mulVec x) := by
    conv_lhs => rw [← h2]
    rw [← Matrix.mulVec_mulVec, ← Matrix.mulVec_mulVec,
      Matrix.dotProduct_mulVec, ← Matrix.mulVec_transpose, hBs]
  rw [key]
  exact hpsd _

/-- `sample_cov` as a scaled Gram matrix of the centred data. -/
theorem sample_cov_eq {n : ℕ} (feats : Fin n → Fin 36 → ℝ) :
    sample_cov feats =
      ((n : ℝ) - 1)⁻¹ • ((devMatrix feats)ᵀ * devMatrix feats) := by
  ext a b
  simp [sample_cov, devMatrix, Matrix.mul_apply, div_eq_inv_mul,
    Finset.mul_sum]

/-- The dot product of a real vector with itself is non-negative. -/
theorem dotProduct_self_nn (v : d → ℝ) : 0 ≤ v ⬝ᵥ v := by
  simp only [Matrix.dotProduct]
  exact Finset.sum_nonneg fun i _ => mul_self_nonneg (v i)

/-- The sample covariance matrix is positive semidefinite (the patch
count exceeds 1, as guaranteed by the size checks). -/
theorem sample_cov_psd {n : ℕ} (hn : 2 ≤ n) (feats : Fin n → Fin 36 → ℝ) :
    ∀ v, 0 ≤ v ⬝ᵥ (sample_cov feats).mulVec v := by
  intro v
  rw [sample_cov_eq, Matrix.smul_mulVec_assoc, Matrix.dotProduct_smul]
  have hc : (0 : ℝ) ≤ ((n : ℝ) - 1)⁻¹ := by
    have h1 : (2 : ℝ) ≤ (n : ℝ) := by exact_mod_cast hn
    have : (0 : ℝ) ≤ (n : ℝ) - 1 := by linarith
    exact inv_nonneg.mpr this
  have hq : 0 ≤ v ⬝ᵥ ((devMatrix feats)ᵀ * devMatrix feats).mulVec v := by
    rw [← Matrix.mulVec_mulVec, Matrix.dotProduct_mulVec,
      Matrix.vecMul_transpose]
    exact dotProduct_self_nn _
  rw [smul_eq_mul]
  exact mul_nonneg hc hq

/-- The sample covariance matrix is symmetric. -/
theorem sample_cov_symm {n : ℕ} (feats : Fin n → Fin 36 → ℝ) :
    (sample_cov feats)ᵀ = sample_cov feats := by
  ext a b
  simp only [sample_cov, Matrix.transpose_apply, Matrix.of_apply]
  congr 1
  exact Finset.sum_congr rfl fun i _ => mul_comm _ _

/-- `covmat` as a scaled sum. -/
theorem covAvg_eq {n : ℕ} (pop_cov : Matrix (Fin 36) (Fin 36) ℝ)
    (feats : Fin n → Fin 36 → ℝ) :
    covAvg pop_cov feats = (2⁻¹ : ℝ) • (pop_cov + sample_cov feats) := by
  ext a b
  simp [covAvg, Matrix.add_apply, div_eq_inv_mul]

/-- `covmat` is symmetric when the population covariance is. -/
theorem covAvg_symm {n : ℕ} {pop_cov : Matrix (Fin 36) (Fin 36) ℝ}
    (feats : Fin n → Fin 36 → ℝ) (hsym : pop_covᵀ = pop_cov) :
    (covAvg pop_cov feats)ᵀ = covAvg pop_cov feats := by
  rw [covAvg_eq, Matrix.transpose_smul, Matrix.transpose_add, hsym,
    sample_cov_symm]

/-- `covmat` is positive semidefinite when the population covariance
is. -/
theorem covAvg_psd {n : ℕ} (hn : 2 ≤ n)
    {pop_cov : Matrix (Fin 36) (Fin 36) ℝ} (feats : Fin n → Fin 36 → ℝ)
    (hpsd : ∀ v, 0 ≤ v ⬝ᵥ pop_cov.mulVec v) :
    ∀ v, 0 ≤ v ⬝ᵥ (covAvg pop_cov feats).mulVec v := by
  intro v
  rw [covAvg_eq, Matrix.smul_mulVec_assoc, Matrix.dotProduct_smul,
    Matrix.add_mulVec, Matrix.dotProduct_add, smul_eq_mul]
  have h1 := hpsd v
  have h2 := sample_cov_psd hn feats v
  have h3 : (0 : ℝ) ≤ 2⁻¹ := by norm_num
  exact mul_nonneg h3 (by linarith)

/-- Claim C7: for every feature matrix with at least two patch rows (the
size checks guarantee at least four) and every symmetric
positive-semidefinite population covariance, the quadratic form under the
pseudo-inverse is non-negative, so the score — its square root — is a
well-defined non-negative real (no NaN can arise from a negative
radicand). -/
theorem claim_C7_score_nonneg {n : ℕ} (hn : 2 ≤ n)
    (feats : Fin n → Fin 36 → ℝ) (pop_mu : Fin 36 → ℝ)
    (pop_cov pinvmat : Matrix (Fin 36) (Fin 36) ℝ)
    (hsym : pop_covᵀ = pop_cov)
    (hpsd : ∀ v, 0 ≤ v ⬝ᵥ pop_cov.mulVec v)
    (hmp : IsMoorePenrose (covAvg pop_cov feats) pinvmat) :
    0 ≤ Xdiff pop_mu feats ⬝ᵥ pinvmat.mulVec (Xdiff pop_mu feats) ∧
    niqe_score pop_mu feats pinvmat =
      Real.sqrt (Xdiff pop_mu feats ⬝ᵥ pinvmat.mulVec (Xdiff pop_mu feats)) ∧
    0 ≤ niqe_score pop_mu feats pinvmat := by
  have hq := mp_psd (covAvg_symm feats hsym) (covAvg_psd hn feats hpsd) hmp
    (Xdiff pop_mu feats)
  exact ⟨hq, rfl, Real.sqrt_nonneg _⟩

/-- The identity matrix is positive semidefinite. -/
theorem one_psd : ∀ v : Fin 36 → ℝ,
    0 ≤ v ⬝ᵥ (1 : Matrix (Fin 36) (Fin 36) ℝ).mulVec v := by
  intro v
  rw [Matrix.one_mulVec]
  exact dotProduct_self_nn v

/-- With all-zero features the sample covariance vanishes. -/
theorem w7_sample_cov : sample_cov w7feats = 0 := by
  ext a b
  simp [sample_cov, w7feats, sample_mu]

/-- With all-zero features and identity population covariance, `covmat`
is `(1/2)·1`. -/
theorem w7_covAvg :
    covAvg (1 : Matrix (Fin 36) (Fin 36) ℝ) w7feats = (2⁻¹ : ℝ) • 1 := by
  rw [covAvg_eq, w7_sample_cov, add_zero]

/-- `2·1` is the Moore-Penrose pseudo-inverse of `(1/2)·1`. -/
theorem w7_mp :
    IsMoorePenrose (covAvg (1 : Matrix (Fin 36) (Fin 36) ℝ) w7feats)
      w7pinv := by
  rw [w7_covAvg]
  have hAB : ((2⁻¹ : ℝ) • (1 : Matrix (Fin 36) (Fin 36) ℝ)) * w7pinv = 1 := by
    rw [show w7pinv = ((2 : ℝ) • (1 : Matrix (Fin 36) (Fin 36) ℝ)) from rfl,
      Matrix.smul_mul, Matrix.mul_smul, smul_smul, one_mul]
    norm_num
  have hBA : w7pinv * ((2⁻¹ : ℝ) • (1 : Matrix (Fin 36) (Fin 36) ℝ)) = 1 := by
    rw [show w7pinv = ((2 : ℝ) • (1 : Matrix (Fin 36) (Fin 36) ℝ)) from rfl,
      Matrix.smul_mul, Matrix.mul_smul, smul_smul, one_mul]
    norm_num
  refine ⟨?_, ?_, ?_, ?_⟩
  · rw [hAB, one_mul]
  · rw [hBA, one_mul]
  · rw [hAB, Matrix.transpose_one]
  · rw [hBA, Matrix.transpose_one]

/-- Concrete instantiation of claim C7: two all-zero feature rows, zero
population mean, identity population covariance, pseudo-inverse `2·1`. -/
theorem claim_C7_witness :
    0 ≤ Xdiff (fun _ => (0 : ℝ)) w7feats ⬝ᵥ
        w7pinv.mulVec (Xdiff (fun _ => (0 : ℝ)) w7feats) ∧
    0 ≤ niqe_score (fun _ => (0 : ℝ)) w7feats w7pinv := by
  have h := claim_C7_score_nonneg (n := 2) (by norm_num) w7feats
    (fun _ => 0) 1 w7pinv Matrix.transpose_one one_psd w7_mp
  exact ⟨h.1, h.2.2⟩

end Score

end Niqe

